import Mathlib

/-!
Verification development for the `tract_math` voxel-space analysis engine
(`src/tract_querier/tract_math/operations.py`).

Streamline points are embedded as rational (for the purely arithmetic
operations: voxelization, kappa, Dice, volume, Bhattacharyya binning) or real
(for the affine rasterizer and the kernel smoother) coordinate triples; numpy
float arrays become lists of triples, numpy integer voxel triples become
`ℤ × ℤ × ℤ`, and Python `set`s of voxels become `Finset (ℤ × ℤ × ℤ)`.
Python exceptions (e.g. `ZeroDivisionError`, `numpy.vstack` on an empty list)
are modelled with `Option`.
-/

/-- Integer voxel index triple `(i, j, k)`. -/
abbrev I3 := ℤ × ℤ × ℤ

/-- Rational point triple, embedding a row of a numpy float array. -/
abbrev Q3 := ℚ × ℚ × ℚ

/-! ## Voxelizer (`voxelized_tract`, operations.py lines 629-634) -/

/-- Round half to even on ℚ, the semantics of `numpy.round` used by
`all_points.round(0)` in `voxelized_tract`. -/
def npRound (q : ℚ) : ℤ :=
  let f : ℤ := ⌊q⌋
  if q - f < 1/2 then f
  else if (1:ℚ)/2 < q - f then f + 1
  else if 2 ∣ f then f else f + 1

/-- Componentwise `npRound`, with the subsequent `astype(int)` cast being the
identity on already-rounded values. -/
def npRound3 (p : Q3) : I3 := (npRound p.1, npRound p.2.1, npRound p.2.2)

/-- `voxelized_tract(tractography, resolution)`: flatten all points of all
tracts, divide by `resolution`, round to nearest (half-even) integer and
collect the unique set.  The source performs no validation of `resolution`. -/
def voxelized_tract (tracts : List (List Q3)) (resolution : ℚ) : Finset I3 :=
  ((tracts.flatten.map
    (fun p => npRound3 (p.1 / resolution, p.2.1 / resolution, p.2.2 / resolution)))).toFinset

/-! ## Agreement metric: kappa (`tract_kappa`, operations.py lines 534-566) -/

/-- Per-axis extent `all_voxels.max(0) - all_voxels.min(0)` of a voxel set
along the coordinate selected by `f`; an empty set yields the junk value 0
(the source raises on an empty array instead). -/
def axisExtent (U : Finset I3) (f : I3 → ℤ) : ℤ :=
  ((U.image f).max.unbot' 0) - ((U.image f).min.untop' 0)

/-- Loop body of `tract_kappa`: the kappa value of two voxel sets, with real
division embedded as ℚ division (so degenerate denominators give the junk
value 0 instead of numpy's `nan`). -/
def tract_kappa (A B : Finset I3) : ℚ :=
  let U := A ∪ B
  let N : ℚ := ((axisExtent U Prod.fst * axisExtent U (fun v => v.2.1) *
    axisExtent U (fun v => v.2.2) : ℤ) : ℚ)
  let pp : ℚ := ((A ∩ B).card : ℚ)
  let pn : ℚ := ((A \ B).card : ℚ)
  let np : ℚ := ((B \ A).card : ℚ)
  let nn : ℚ := N - pp - pn - np
  let observed_agreement := (pp + nn) / N
  let chance_agreement := ((pp + pn) * (pp + np) + (nn + np) * (nn + pn)) / (N * N)
  (observed_agreement - chance_agreement) / (1 - chance_agreement)

/-- The claim's normalizer: product of the extents of the bounding box of
`A ∪ B`, written with `Finset.max'`/`Finset.min'` over the nonempty union. -/
def kappaSpec_N (A B : Finset I3) (h : (A ∪ B).Nonempty) : ℤ :=
  (((A ∪ B).image Prod.fst).max' (h.image _) - ((A ∪ B).image Prod.fst).min' (h.image _)) *
  (((A ∪ B).image (fun v => v.2.1)).max' (h.image _) -
    ((A ∪ B).image (fun v => v.2.1)).min' (h.image _)) *
  (((A ∪ B).image (fun v => v.2.2)).max' (h.image _) -
    ((A ∪ B).image (fun v => v.2.2)).min' (h.image _))

/-- The claim's `nn = N - pp - pn - np`. -/
def kappaSpec_nn (A B : Finset I3) (h : (A ∪ B).Nonempty) : ℚ :=
  (kappaSpec_N A B h : ℚ) - ((A ∩ B).card : ℚ) - ((A \ B).card : ℚ) - ((B \ A).card : ℚ)

/-- The claim's `observed = (pp + nn) / N`. -/
def kappaSpec_observed (A B : Finset I3) (h : (A ∪ B).Nonempty) : ℚ :=
  (((A ∩ B).card : ℚ) + kappaSpec_nn A B h) / (kappaSpec_N A B h : ℚ)

/-- The claim's `chance = ((pp+pn)(pp+np) + (nn+np)(nn+pn)) / N²`. -/
def kappaSpec_chance (A B : Finset I3) (h : (A ∪ B).Nonempty) : ℚ :=
  ((((A ∩ B).card : ℚ) + ((A \ B).card : ℚ)) * (((A ∩ B).card : ℚ) + ((B \ A).card : ℚ)) +
    (kappaSpec_nn A B h + ((B \ A).card : ℚ)) * (kappaSpec_nn A B h + ((A \ B).card : ℚ))) /
  ((kappaSpec_N A B h : ℚ) * (kappaSpec_N A B h : ℚ))

/-- On a nonempty finset the junk-totalized max agrees with `Finset.max'`. -/
lemma max_unbot_eq_max (s : Finset ℤ) (h : s.Nonempty) : s.max.unbot' 0 = s.max' h := by
  rw [← Finset.coe_max' h]
  rfl

/-- On a nonempty finset the junk-totalized min agrees with `Finset.min'`. -/
lemma min_untop_eq_min (s : Finset ℤ) (h : s.Nonempty) : s.min.untop' 0 = s.min' h := by
  rw [← Finset.coe_min' h]
  rfl

lemma axisExtent_eq (U : Finset I3) (h : U.Nonempty) (f : I3 → ℤ) :
    axisExtent U f = (U.image f).max' (h.image f) - (U.image f).min' (h.image f) := by
  rw [axisExtent, max_unbot_eq_max _ (h.image f), min_untop_eq_min _ (h.image f)]

/-! ## Agreement metric: Dice (`tract_dice`, operations.py lines 604-626) -/

/-- Loop body of `tract_dice`.  The numerator `2 * len(A ∩ B) * 1.` is a
Python float and the denominator `len(A) + len(B)` a Python int, so a zero
denominator raises `ZeroDivisionError`; that exception is modelled as
`none`. -/
def tract_dice (A B : Finset I3) : Option ℚ :=
  if A.card + B.card = 0 then none
  else some (2 * ((A ∩ B).card : ℚ) / ((A.card : ℚ) + (B.card : ℚ)))

/-! ## Volume estimator (`tract_volume`, operations.py lines 60-85) -/

/-- The six face-adjacent neighbor offsets of `tract_volume`. -/
def neighborOffsets : List I3 :=
  [(0, 1, 0), (0, -1, 0), (1, 0, 0), (-1, 0, 0), (0, 0, 1), (0, 0, -1)]

/-- `zip(*(neighbors + voxel).T)`: the six face neighbors of a voxel. -/
def voxelNeighbors (v : I3) : List I3 := neighborOffsets.map (fun o => v + o)

/-- `dilated_voxels`: the occupied voxels together with all their face
neighbors. -/
def dilated_voxels (vox : Finset I3) : Finset I3 :=
  vox ∪ vox.biUnion (fun v => (voxelNeighbors v).toFinset)

/-- `eroded_voxels`: occupied voxels whose intersection with their six
neighbors has full cardinality 6 (the source's
`len(voxels.intersection(neighbors_list)) == len(neighbors)` test). -/
def eroded_voxels (vox : Finset I3) : Finset I3 :=
  vox.filter (fun v => (vox ∩ (voxelNeighbors v).toFinset).card = 6)

/-- `tract_volume` body: `(|dilated| - |eroded|) / 2 * resolution³`. -/
def tract_volume (vox : Finset I3) (resolution : ℚ) : ℚ :=
  (((dilated_voxels vox).card : ℚ) - ((eroded_voxels vox).card : ℚ)) / 2 * resolution ^ 3

/-! ## Bhattacharyya shared bin range
(`tract_bhattacharyya_coefficient`, operations.py lines 821-873) -/

/-- Componentwise minimum of two point triples (`numpy.minimum`). -/
def pmin (a b : Q3) : Q3 := (min a.1 b.1, min a.2.1 b.2.1, min a.2.2 b.2.2)

/-- Componentwise maximum of two point triples (`numpy.maximum`). -/
def pmax (a b : Q3) : Q3 := (max a.1 b.1, max a.2.1 b.2.1, max a.2.2 b.2.2)

/-- Columnwise minimum `points.min(0)` of a point cloud (junk value on the
empty cloud, where numpy raises). -/
def colMin : List Q3 → Q3
  | [] => (0, 0, 0)
  | p :: rest => rest.foldl pmin p

/-- Columnwise maximum `points.max(0)` of a point cloud. -/
def colMax : List Q3 → Q3
  | [] => (0, 0, 0)
  | p :: rest => rest.foldl pmax p

/-- The shared histogram range of `tract_bhattacharyya_coefficient`,
exactly as the source computes it:

    mn_ = tractography_points.min(0)
    mx_ = tractography_points.max(0)
    for pts in other_tracts_points:
        mn_ = numpy.minimum(mn_, pts.min(0))
        mx_ = numpy.maximum(mn_, pts.max(0))

Note that the `mx_` update reads the just-updated `mn_`, not `mx_`. -/
def bhat_bounds (ref : List Q3) (others : List (List Q3)) : Q3 × Q3 :=
  others.foldl
    (fun mm pts =>
      let mn := pmin mm.1 (colMin pts)
      let mx := pmax mn (colMax pts)
      (mn, mx))
    (colMin ref, colMax ref)

/-- Modelled from the spec: the shared bin range the claim describes, with
lower bound the componentwise minimum of all cloud minima and upper bound the
componentwise maximum of all cloud maxima. -/
def bhat_bounds_spec (ref : List Q3) (others : List (List Q3)) : Q3 × Q3 :=
  ((others.map colMin).foldl pmin (colMin ref),
   (others.map colMax).foldl pmax (colMax ref))

/-! ## Claim C1 -/

/-- C1: for voxel sets `A`, `B` with `A ∪ B` nonempty, `tract_kappa` computes
`N` as the product of the extents of the bounding box of `A ∪ B`,
`pp = |A ∩ B|`, `pn = |A \ B|`, `np = |B \ A|`, `nn = N - pp - pn - np`,
`observed = (pp + nn)/N`, `chance = ((pp+pn)(pp+np) + (nn+np)(nn+pn))/N²`,
and returns `(observed - chance) / (1 - chance)`. -/
theorem tract_kappa_matches_spec (A B : Finset I3) (h : (A ∪ B).Nonempty) :
    tract_kappa A B =
      (kappaSpec_observed A B h - kappaSpec_chance A B h) / (1 - kappaSpec_chance A B h) := by
  have hN : (axisExtent (A ∪ B) Prod.fst * axisExtent (A ∪ B) (fun v => v.2.1) *
      axisExtent (A ∪ B) (fun v => v.2.2) : ℤ) = kappaSpec_N A B h := by
    rw [axisExtent_eq _ h, axisExtent_eq _ h, axisExtent_eq _ h, kappaSpec_N]
  rw [tract_kappa, kappaSpec_observed, kappaSpec_chance, kappaSpec_nn, hN]

theorem tract_kappa_matches_spec_witness :
    (({((0:ℤ), (0:ℤ), (0:ℤ))} ∪ {((1:ℤ), (2:ℤ), (3:ℤ))} : Finset I3).Nonempty) ∧
      tract_kappa {((0:ℤ), (0:ℤ), (0:ℤ))} {((1:ℤ), (2:ℤ), (3:ℤ))} =
        (kappaSpec_observed {((0:ℤ), (0:ℤ), (0:ℤ))} {((1:ℤ), (2:ℤ), (3:ℤ))} (by decide) -
            kappaSpec_chance {((0:ℤ), (0:ℤ), (0:ℤ))} {((1:ℤ), (2:ℤ), (3:ℤ))} (by decide)) /
          (1 - kappaSpec_chance {((0:ℤ), (0:ℤ), (0:ℤ))} {((1:ℤ), (2:ℤ), (3:ℤ))} (by decide)) :=
  ⟨by decide, tract_kappa_matches_spec _ _ (by decide)⟩

/-! ## Claim C2 -/

/-- C2 (code bug witness): with reference cloud `{(0,0,0), (10,10,10)}` and a
single comparison cloud `{(5,5,5)}`, the source's shared upper bin bound is
`(5,5,5)` — the reference maximum 10 is discarded because line 849 takes
`numpy.maximum` against the just-updated lower bound `mn_` — while the claimed
upper bound (maximum of all cloud maxima) is `(10,10,10)`. -/
theorem bhat_bounds_drops_reference_max :
    (bhat_bounds [((0:ℚ), 0, 0), (10, 10, 10)] [[((5:ℚ), 5, 5)]]).2 = ((5:ℚ), 5, 5) ∧
      (bhat_bounds_spec [((0:ℚ), 0, 0), (10, 10, 10)] [[((5:ℚ), 5, 5)]]).2 =
        ((10:ℚ), 10, 10) := by
  constructor <;>
    norm_num [bhat_bounds, bhat_bounds_spec, pmin, pmax, colMin, colMax, min_def, max_def]

/-! ## Claim C5 -/

/-- C5 (counterexample): at resolution `-1` the voxelizer does not fail with
any error — no `InvalidResolutionError` exists in the source — and returns the
voxel set `{(-1, -2, -3)}` for the single point `(1, 2, 3)`. -/
theorem voxelized_tract_negative_resolution_returns :
    voxelized_tract [[((1:ℚ), 2, 3)]] (-1) = {((-1:ℤ), -2, -3)} := by
  simp only [voxelized_tract, npRound3, List.flatten, List.append_nil, List.map_cons,
    List.map_nil, List.toFinset_cons, List.toFinset_nil, insert_emptyc_eq]
  norm_num [npRound]

/-- C5 (amended): for every negative resolution the voxelizer returns
normally, and its result is exactly the set of rounded scaled points. -/
theorem voxelized_tract_negative_resolution_spec (tracts : List (List Q3)) (resolution : ℚ)
    (h : resolution < 0) (v : I3) :
    v ∈ voxelized_tract tracts resolution ↔
      ∃ p ∈ tracts.flatten,
        npRound3 (p.1 / resolution, p.2.1 / resolution, p.2.2 / resolution) = v := by
  simp only [voxelized_tract, List.mem_toFinset, List.mem_map]

theorem voxelized_tract_negative_resolution_spec_witness :
    ((-1:ℚ) < 0) ∧
      (((-1:ℤ), -2, -3) ∈ voxelized_tract [[((1:ℚ), 2, 3)]] (-1) ↔
        ∃ p ∈ ([[((1:ℚ), 2, 3)]] : List (List Q3)).flatten,
          npRound3 (p.1 / (-1), p.2.1 / (-1), p.2.2 / (-1)) = ((-1:ℤ), -2, -3)) :=
  ⟨by norm_num, voxelized_tract_negative_resolution_spec _ _ (by norm_num) _⟩

/-! ## Claim C6 -/

/-- C6 (counterexample): on two empty voxel sets the Dice computation raises
`ZeroDivisionError` (modelled as `none`) instead of returning a NaN value. -/
theorem tract_dice_empty_raises : tract_dice (∅ : Finset I3) (∅ : Finset I3) = none := by
  decide

/-- C6 (amended): whenever at least one voxel set is nonempty the Dice
operation returns `2·|A ∩ B| / (|A| + |B|)`; when both are empty it raises a
division-by-zero exception rather than propagating NaN. -/
theorem tract_dice_spec (A B : Finset I3) (h : A.card + B.card ≠ 0) :
    tract_dice A B = some (2 * ((A ∩ B).card : ℚ) / ((A.card : ℚ) + (B.card : ℚ))) := by
  rw [tract_dice, if_neg h]

theorem tract_dice_spec_witness :
    (({((0:ℤ), (0:ℤ), (0:ℤ))} : Finset I3).card + (∅ : Finset I3).card ≠ 0) ∧
      tract_dice {((0:ℤ), (0:ℤ), (0:ℤ))} (∅ : Finset I3) =
        some (2 * ((({((0:ℤ), (0:ℤ), (0:ℤ))} : Finset I3) ∩ ∅).card : ℚ) /
          ((({((0:ℤ), (0:ℤ), (0:ℤ))} : Finset I3).card : ℚ) + ((∅ : Finset I3).card : ℚ))) :=
  ⟨by decide, tract_dice_spec _ _ (by decide)⟩

/-! ## Claim C8 -/

lemma dilated_singleton (v : I3) :
    dilated_voxels {v} = (((0, 0, 0) :: neighborOffsets).toFinset).image (fun o => v + o) := by
  ext x
  simp only [dilated_voxels, Finset.mem_union, Finset.mem_singleton, Finset.singleton_biUnion,
    List.mem_toFinset, Finset.mem_image, voxelNeighbors, List.mem_map, List.mem_cons]
  constructor
  · rintro (rfl | ⟨o, ho, rfl⟩)
    · exact ⟨(0, 0, 0), Or.inl rfl, by simp⟩
    · exact ⟨o, Or.inr ho, rfl⟩
  · rintro ⟨o, ho | ho, rfl⟩
    · subst ho; exact Or.inl (by simp)
    · exact Or.inr ⟨o, ho, rfl⟩

lemma eroded_singleton (v : I3) : eroded_voxels {v} = ∅ := by
  rw [eroded_voxels, Finset.filter_singleton, if_neg]
  intro hcard
  have hle : ({v} ∩ (voxelNeighbors v).toFinset).card ≤ ({v} : Finset I3).card :=
    Finset.card_le_card Finset.inter_subset_left
  rw [hcard, Finset.card_singleton] at hle
  omega

/-- C8: for every resolution `r > 0` and every single-voxel occupancy set, the
dilated set has size 7, the eroded set is empty, and `tract_volume` returns
`(7 - 0)/2 · r³ = 3.5·r³`. -/
theorem tract_volume_single_voxel (v : I3) (r : ℚ) (hr : 0 < r) :
    (dilated_voxels {v}).card = 7 ∧ (eroded_voxels {v}).card = 0 ∧
      tract_volume {v} r = 7/2 * r ^ 3 := by
  have hinj : Function.Injective (fun o : I3 => v + o) := fun a b hab => by
    simpa using hab
  have hcard : (dilated_voxels {v}).card = 7 := by
    rw [dilated_singleton, Finset.card_image_of_injective _ hinj]
    decide
  refine ⟨hcard, by rw [eroded_singleton]; rfl, ?_⟩
  rw [tract_volume, hcard, eroded_singleton]
  norm_num

theorem tract_volume_single_voxel_witness :
    ((0:ℚ) < 2) ∧
      ((dilated_voxels {((0:ℤ), (0:ℤ), (0:ℤ))}).card = 7 ∧
        (eroded_voxels {((0:ℤ), (0:ℤ), (0:ℤ))}).card = 0 ∧
        tract_volume {((0:ℤ), (0:ℤ), (0:ℤ))} 2 = 7/2 * 2 ^ 3) :=
  ⟨by norm_num, tract_volume_single_voxel _ _ (by norm_num)⟩

/-! ## Rasterizer (operations.py lines 708-753)

Real-valued streamline geometry.  The image is a shape triple plus a 4×4
affine matrix; `numpy.linalg.solve(affine, x)` is embedded as multiplication
by the matrix inverse (`Matrix.inv`, which returns the junk value 0 on a
singular affine where numpy raises `LinAlgError` instead; the claims below do
not exercise singular affines). -/

/-- Real point triple. -/
abbrev V3 := ℝ × ℝ × ℝ

noncomputable section

open scoped Classical

/-- Homogeneous coordinates `[x, y, z, 1]` of a point. -/
def homog (p : V3) : Fin 4 → ℝ := ![p.1, p.2.1, p.2.2, 1]

/-- Solve `affine · [i,j,k,1]ᵀ = [x,y,z,1]ᵀ` for one point and drop the
homogeneous coordinate. -/
def ijkOf (A : Matrix (Fin 4) (Fin 4) ℝ) (p : V3) : V3 :=
  let w := A⁻¹.mulVec (homog p)
  (w 0, w 1, w 2)

/-- `tract_in_ijk`: stack all points of all tracts and map them to voxel
coordinates. -/
def tract_in_ijk (A : Matrix (Fin 4) (Fin 4) ℝ) (tracts : List (List V3)) : List V3 :=
  tracts.flatten.map (ijkOf A)

/-- Python/numpy `astype(int)`: truncation toward zero. -/
def pyint (x : ℝ) : ℤ := if 0 ≤ x then ⌊x⌋ else -⌊-x⌋

/-- `numpy.clip(x, 0, hi)` on one coordinate: `min (max 0 x) hi`. -/
def clipCoord (x : ℝ) (hi : ℤ) : ℝ := min (max 0 x) (hi : ℝ)

/-- One row of `ijk_points.clip((0,0,0), shape - 1).astype(int)`. -/
def clipIndex (shape : I3) (p : V3) : I3 :=
  (pyint (clipCoord p.1 (shape.1 - 1)),
   pyint (clipCoord p.2.1 (shape.2.1 - 1)),
   pyint (clipCoord p.2.2 (shape.2.2 - 1)))

/-- A voxel grid of reals, indexed by integer triples (the allocated array
has the image's shape; all indices written below are clipped into it). -/
def Grid := I3 → ℝ

/-- Write a single grid cell. -/
def gridUpdate (g : Grid) (c : I3) (x : ℝ) : Grid :=
  fun d => if d = c then x else g d

/-- `mask = zeros(shape); mask[tuple(ijk_clipped.T)] = 1`: scatter ones at the
given indices over an all-zero grid. -/
def maskGridOf (idxs : List I3) : Grid :=
  idxs.foldl (fun g c => gridUpdate g c 1) (fun _ => 0)

/-- `tract_mask(image, tractography)`.  `numpy.vstack` raises `ValueError` on
a tractography without tracts, modelled as `none`. -/
def tract_mask (A : Matrix (Fin 4) (Fin 4) ℝ) (shape : I3) (tracts : List (List V3)) :
    Option Grid :=
  if tracts = [] then none
  else some (maskGridOf ((tract_in_ijk A tracts).map (clipIndex shape)))

/-- `tract_probability_map`: per tract, add 1 to each clipped voxel the tract
touches (numpy fancy-index `+= 1` increments a repeated index only once, i.e.
it adds that tract's 0/1 mask grid), then divide by the tract count. -/
def tract_probability_map (A : Matrix (Fin 4) (Fin 4) ℝ) (shape : I3)
    (tracts : List (List V3)) : Grid :=
  let acc := tracts.foldl
    (fun g t => fun c => g c + maskGridOf ((t.map (ijkOf A)).map (clipIndex shape)) c)
    (fun _ => 0)
  fun c => acc c / (tracts.length : ℝ)

/-- The probabilistic-OR accumulation `p' = p + m - p·m` of
`tract_generate_probability_map`. -/
def probUpdate (g m : Grid) : Grid := fun c => g c + m c - g c * m c

/-- `tract_generate_probability_map(tractographies, image)`: density map of
the first tractography, then for each later tractography skip it when it has
no tracts, otherwise fold its mask in with `probUpdate`.  Indexing
`tractographies[0]` of an empty group raises, modelled as `none`. -/
def tract_generate_probability_map (A : Matrix (Fin 4) (Fin 4) ℝ) (shape : I3)
    (ts : List (List (List V3))) : Option Grid :=
  match ts with
  | [] => none
  | t0 :: rest =>
    rest.foldl
      (fun acc t =>
        if t = [] then acc
        else
          match tract_mask A shape t with
          | none => none
          | some m => acc.map (fun g => probUpdate g m))
      (some (tract_probability_map A shape t0))

end

lemma foldl_gridUpdate_apply (idxs : List I3) (g : Grid) (c : I3) :
    (idxs.foldl (fun g c => gridUpdate g c 1) g) c = if c ∈ idxs then 1 else g c := by
  induction idxs generalizing g with
  | nil => simp
  | cons i l ih =>
    rw [List.foldl_cons, ih]
    by_cases hc : c ∈ l <;> by_cases hci : c = i <;>
      simp [gridUpdate, hc, hci, List.mem_cons]

lemma maskGridOf_apply (idxs : List I3) (c : I3) :
    maskGridOf idxs c = if c ∈ idxs then 1 else 0 := by
  rw [maskGridOf, foldl_gridUpdate_apply]

lemma clip_component_bounds (x : ℝ) (s : ℤ) (hs : 1 ≤ s) :
    0 ≤ pyint (clipCoord x (s - 1)) ∧ pyint (clipCoord x (s - 1)) ≤ s - 1 := by
  have hy0 : (0:ℝ) ≤ clipCoord x (s - 1) := by
    rw [clipCoord]
    refine le_min (le_max_left _ _) ?_
    have : (0:ℤ) ≤ s - 1 := by omega
    exact_mod_cast this
  have hyhi : clipCoord x (s - 1) ≤ ((s - 1 : ℤ) : ℝ) := min_le_right _ _
  rw [pyint, if_pos hy0]
  constructor
  · exact Int.floor_nonneg.mpr hy0
  · calc ⌊clipCoord x (s - 1)⌋ ≤ ⌊((s - 1 : ℤ) : ℝ)⌋ := Int.floor_le_floor hyhi
    _ = s - 1 := Int.floor_intCast _

/-! ## Claim C7 -/

/-- C7: for every image (shape with positive extents plus affine) and every
nonempty streamline set, `tract_mask` returns a grid that equals 1 exactly at
the clipped voxel indices of the streamline points (clamped per axis into
`[0, shape-1]`), equals 0 everywhere else, and is strictly 0/1-valued. -/
theorem tract_mask_spec (A : Matrix (Fin 4) (Fin 4) ℝ) (shape : I3) (tracts : List (List V3))
    (ht : tracts ≠ []) (hs1 : 1 ≤ shape.1) (hs2 : 1 ≤ shape.2.1) (hs3 : 1 ≤ shape.2.2) :
    ∃ g, tract_mask A shape tracts = some g ∧
      (∀ c, g c = if c ∈ (tract_in_ijk A tracts).map (clipIndex shape) then 1 else 0) ∧
      (∀ c ∈ (tract_in_ijk A tracts).map (clipIndex shape),
        0 ≤ c.1 ∧ c.1 ≤ shape.1 - 1 ∧ 0 ≤ c.2.1 ∧ c.2.1 ≤ shape.2.1 - 1 ∧
          0 ≤ c.2.2 ∧ c.2.2 ≤ shape.2.2 - 1) ∧
      (∀ c, g c = 0 ∨ g c = 1) := by
  refine ⟨maskGridOf ((tract_in_ijk A tracts).map (clipIndex shape)),
    by rw [tract_mask, if_neg ht], fun c => maskGridOf_apply _ c, ?_, ?_⟩
  · intro c hc
    rcases List.mem_map.mp hc with ⟨p, _, rfl⟩
    rcases clip_component_bounds p.1 shape.1 hs1 with ⟨h1a, h1b⟩
    rcases clip_component_bounds p.2.1 shape.2.1 hs2 with ⟨h2a, h2b⟩
    rcases clip_component_bounds p.2.2 shape.2.2 hs3 with ⟨h3a, h3b⟩
    exact ⟨h1a, h1b, h2a, h2b, h3a, h3b⟩
  · intro c
    rw [maskGridOf_apply]
    by_cases hc : c ∈ (tract_in_ijk A tracts).map (clipIndex shape) <;> simp [hc]

theorem tract_mask_spec_witness :
    (([[((0:ℝ), 0, 0)]] : List (List V3)) ≠ [] ∧ (1:ℤ) ≤ 1) ∧
      (∃ g, tract_mask (1 : Matrix (Fin 4) (Fin 4) ℝ) ((1, 1, 1) : I3) [[((0:ℝ), 0, 0)]] =
          some g ∧
        (∀ c, g c = if c ∈ (tract_in_ijk (1 : Matrix (Fin 4) (Fin 4) ℝ)
          [[((0:ℝ), 0, 0)]]).map (clipIndex ((1, 1, 1) : I3)) then 1 else 0) ∧
        (∀ c ∈ (tract_in_ijk (1 : Matrix (Fin 4) (Fin 4) ℝ)
            [[((0:ℝ), 0, 0)]]).map (clipIndex ((1, 1, 1) : I3)),
          0 ≤ c.1 ∧ c.1 ≤ ((1, 1, 1) : I3).1 - 1 ∧ 0 ≤ c.2.1 ∧
            c.2.1 ≤ ((1, 1, 1) : I3).2.1 - 1 ∧ 0 ≤ c.2.2 ∧ c.2.2 ≤ ((1, 1, 1) : I3).2.2 - 1) ∧
        (∀ c, g c = 0 ∨ g c = 1)) :=
  ⟨⟨by simp, by decide⟩,
    tract_mask_spec _ _ _ (by simp) (by decide) (by decide) (by decide)⟩

/-! ## Claim C10 -/

/-- C10: in `tract_generate_probability_map`, a member after the first with
zero streamlines is skipped: inserting such a member anywhere in the tail
leaves the produced probability map unchanged (in particular the accumulated
grid after processing it equals the grid before it), and the empty member
never makes the operation fail. -/
theorem tract_generate_probability_map_skips_empty (A : Matrix (Fin 4) (Fin 4) ℝ)
    (shape : I3) (t0 : List (List V3)) (l1 l2 : List (List (List V3))) :
    tract_generate_probability_map A shape (t0 :: (l1 ++ [] :: l2)) =
      tract_generate_probability_map A shape (t0 :: (l1 ++ l2)) := by
  simp [tract_generate_probability_map, List.foldl_append]

/-! ## Smoothing engine (`tract_smooth`, operations.py lines 637-705)

The per-point computation follows the source: forward-difference tangents
(with the last difference repeated), projection of each neighbor onto the
plane orthogonal to the tangent (`normal_planes = I - t·tᵀ` applied to the
difference vector), Gaussian weights on the original neighbor distances with
`std = var ** 2`, normalization of the weights across the neighbor axis, and
the in-place write `tract[:] = weighted_points`.  The `sklearn` `BallTree` is
modelled as exact nearest-neighbor search: `query_radius` counts points within
the radius and `query(tract, N)` returns the `N` nearest points (sorted by
true Euclidean distance, ties broken by list order). -/

noncomputable section

open scoped Classical

/-- Euclidean dot product on coordinate triples. -/
def dot3 (x y : V3) : ℝ := x.1 * y.1 + x.2.1 * y.2.1 + x.2.2 * y.2.2

/-- Euclidean norm. -/
def norm3 (x : V3) : ℝ := Real.sqrt (dot3 x x)

/-- Euclidean distance between two points. -/
def dist3 (p q : V3) : ℝ := norm3 (q - p)

/-- `numpy.diff(tract, axis=0)`: consecutive differences. -/
def diffs : List V3 → List V3
  | p :: q :: rest => (q - p) :: diffs (q :: rest)
  | _ => []

/-- `numpy.vstack((diff, diff[-1]))`: consecutive differences with the last
one repeated, so that every point has a forward tangent.  A tract with fewer
than two points raises in the source (`diff[-1]` on an empty array); here the
junk value `[]` is returned and such tracts are excluded by hypotheses. -/
def diffExt (t : List V3) : List V3 :=
  match (diffs t).getLast? with
  | some d => diffs t ++ [d]
  | none => []

/-- Source line 642: `std = var ** 2`. -/
def smooth_std (var : ℝ) : ℝ := var ^ 2

/-- Source line 681: `numpy.exp(-.5 * close_point_distances ** 2 / std)`. -/
def kernelWeight (var d : ℝ) : ℝ := Real.exp (-(1/2) * d ^ 2 / smooth_std var)

/-- The unnormalized Gaussian weights of a point's neighbor list, evaluated
at the original (unprojected) neighbor distances returned by the tree
query. -/
def rawWeights (var : ℝ) (p : V3) (nbrs : List V3) : List ℝ :=
  nbrs.map (fun q => kernelWeight var (dist3 p q))

/-- `BallTree.query(·, k)` for one point: the `k` nearest points. -/
def kNearest (pts : List V3) (p : V3) (k : ℕ) : List V3 :=
  (List.insertionSort (fun q r => dist3 p q ≤ dist3 p r) pts).take k

/-- `len(BallTree.query_radius(·, r)[i])`: how many indexed points lie within
distance `r` of `p`. -/
def radiusCount (pts : List V3) (p : V3) (r : ℝ) : ℕ :=
  (pts.filter (fun q => dist3 p q ≤ r)).length

/-- The smoothed position of one point `p` with forward difference `d`:
project each of the `k` nearest neighbors onto the plane through `p`
orthogonal to the normalized tangent, weight by the Gaussian kernel of the
original neighbor distance normalized to sum to one, and sum. -/
def smoothPoint (var : ℝ) (allPoints : List V3) (k : ℕ) (p d : V3) : V3 :=
  (List.zipWith
    (fun w cand => (w / (rawWeights var p (kNearest allPoints p k)).sum) • cand)
    (rawWeights var p (kNearest allPoints p k))
    ((kNearest allPoints p k).map
      (fun q =>
        ((q - p) - dot3 ((norm3 d)⁻¹ • d) (q - p) • ((norm3 d)⁻¹ • d)) + p))).sum

/-- One loop iteration's tract computation: the adaptive neighbor count
`N = max(len(d) for d in bt.query_radius(tract, var * 3))` followed by the
per-point weighted projection. -/
def smoothTract (var : ℝ) (allPoints : List V3) (t : List V3) : List V3 :=
  (t.zip (diffExt t)).map
    (fun pd =>
      smoothPoint var allPoints
        ((t.map (fun p => radiusCount allPoints p (var * 3))).foldl max 0) pd.1 pd.2)

/-- The in-place loop `for i, tract in enumerate(...): ...; tract[:] =
weighted_points`, as explicit state passing over the list of tract arrays:
iteration `i` replaces entry `i` of the state with its smoothed points. -/
def smoothLoopGo (f : List V3 → List V3) : ℕ → ℕ → List (List V3) → List (List V3)
  | 0, _, st => st
  | fuel + 1, i, st => smoothLoopGo f fuel (i + 1) (st.set i (f (st.getD i [])))

/-- The state of the input tractography's tract arrays after `tract_smooth`
returns: the loop has overwritten each array with its smoothed points.  The
spatial index (`all_points`, a `vstack` copy) is built once from the original
geometry before the loop. -/
def tract_smooth_state (var : ℝ) (tracts : List (List V3)) : List (List V3) :=
  smoothLoopGo (smoothTract var tracts.flatten) tracts.length 0 tracts

/-- The tracts of the returned `Tractography`: the source returns
`Tractography(tractography.original_tracts(), ...)` built from the same
arrays the loop just overwrote. -/
def tract_smooth (var : ℝ) (tracts : List (List V3)) : List (List V3) :=
  tract_smooth_state var tracts

/-- Modelled from the spec: the weight formula the claim states,
`w = exp(−d² / (2·varianceParameter))`. -/
def claimKernelWeight (var d : ℝ) : ℝ := Real.exp (-(d ^ 2) / (2 * var))

end

/-! ### List helper lemmas for the smoothing proofs -/

lemma list_sum_map_div (l : List ℝ) (c : ℝ) :
    (l.map (fun x => x / c)).sum = l.sum / c := by
  induction l with
  | nil => simp
  | cons x xs ih => simp [ih, add_div]

lemma list_map_smul_sum (l : List V3) (g : V3 → ℝ) (p : V3) :
    (l.map (fun x => g x • p)).sum = (l.map g).sum • p := by
  induction l with
  | nil => simp
  | cons x xs ih => simp [ih, add_smul]

lemma list_sum_nonneg (l : List ℝ) (h : ∀ x ∈ l, 0 ≤ x) : 0 ≤ l.sum := by
  induction l with
  | nil => simp
  | cons x xs ih =>
    rw [List.sum_cons]
    have hx := h x (by simp)
    have hxs := ih (fun y hy => h y (by simp [hy]))
    linarith

lemma list_sum_pos_of_mem (l : List ℝ) (hall : ∀ y ∈ l, 0 ≤ y) (x : ℝ)
    (hx : x ∈ l) (hxpos : 0 < x) : 0 < l.sum := by
  induction l with
  | nil => simp at hx
  | cons y ys ih =>
    rw [List.sum_cons]
    rcases List.mem_cons.mp hx with rfl | hx'
    · have := list_sum_nonneg ys (fun z hz => hall z (by simp [hz]))
      linarith
    · have hy := hall y (by simp)
      have := ih (fun z hz => hall z (by simp [hz])) hx'
      linarith

lemma init_le_foldl_max (l : List ℕ) (a : ℕ) : a ≤ l.foldl max a := by
  induction l generalizing a with
  | nil => simp
  | cons y ys ih => exact le_trans (le_max_left a y) (ih (max a y))

lemma le_foldl_max (l : List ℕ) (a : ℕ) (x : ℕ) (hx : x ∈ l) : x ≤ l.foldl max a := by
  induction l generalizing a with
  | nil => simp at hx
  | cons y ys ih =>
    rw [List.foldl_cons]
    rcases List.mem_cons.mp hx with rfl | hx'
    · exact le_trans (le_max_right a x) (init_le_foldl_max ys (max a x))
    · exact ih (max a y) hx'

lemma getD_append_len (pre : List (List V3)) (s : List V3) (rest : List (List V3)) :
    (pre ++ s :: rest).getD pre.length [] = s := by
  induction pre with
  | nil => rfl
  | cons p ps ih => simpa using ih

lemma set_append_len (pre : List (List V3)) (s x : List V3) (rest : List (List V3)) :
    (pre ++ s :: rest).set pre.length x = pre ++ x :: rest := by
  induction pre with
  | nil => rfl
  | cons p ps ih => simpa using ih

lemma smoothLoopGo_eq (f : List V3 → List V3) :
    ∀ (suf pre : List (List V3)),
      smoothLoopGo f suf.length pre.length (pre ++ suf) = pre ++ suf.map f := by
  intro suf
  induction suf with
  | nil => intro pre; simp [smoothLoopGo]
  | cons s rest ih =>
    intro pre
    rw [List.length_cons, smoothLoopGo, getD_append_len, set_append_len]
    have h1 : pre.length + 1 = (pre ++ [f s]).length := by simp
    have h2 : pre ++ f s :: rest = (pre ++ [f s]) ++ rest := by simp
    rw [h1, h2, ih (pre ++ [f s])]
    simp

/-- The loop's final state is the pointwise smoothing of the original
streamlines: every iteration reads only its own (not yet overwritten) array
and the up-front `vstack` copy of all points. -/
lemma tract_smooth_state_eq (var : ℝ) (tracts : List (List V3)) :
    tract_smooth_state var tracts = tracts.map (smoothTract var tracts.flatten) := by
  have := smoothLoopGo_eq (smoothTract var tracts.flatten) tracts []
  simpa [tract_smooth_state] using this

section SmoothingLemmas

open scoped Classical

lemma dot3_self_nonneg (x : V3) : 0 ≤ dot3 x x := by
  have h1 := mul_self_nonneg x.1
  have h2 := mul_self_nonneg x.2.1
  have h3 := mul_self_nonneg x.2.2
  simp only [dot3]
  linarith

lemma dot3_smul_left (c : ℝ) (x y : V3) : dot3 (c • x) y = c * dot3 x y := by
  simp only [dot3, Prod.smul_fst, Prod.smul_snd, smul_eq_mul]
  ring

lemma dot3_smul_right (c : ℝ) (x y : V3) : dot3 x (c • y) = c * dot3 x y := by
  simp only [dot3, Prod.smul_fst, Prod.smul_snd, smul_eq_mul]
  ring

lemma line_sub (a v : V3) (s s' : ℝ) : (a + s' • v) - (a + s • v) = (s' - s) • v := by
  rw [sub_smul]
  abel

/-- Projecting a neighbor on the same line as `p` onto the plane through `p`
orthogonal to a tangent along that line yields `p` itself. -/
lemma proj_candidate_eq (p q v d : V3) (c m : ℝ) (hc : c ≠ 0) (hvv : dot3 v v ≠ 0)
    (hd : d = c • v) (hqp : q - p = m • v) :
    ((q - p) - dot3 ((norm3 d)⁻¹ • d) (q - p) • ((norm3 d)⁻¹ • d)) + p = p := by
  subst hd
  have hdd : dot3 (c • v) (c • v) = c * (c * dot3 v v) := by
    rw [dot3_smul_left, dot3_smul_right]
  have hddpos : 0 < dot3 (c • v) (c • v) := by
    rcases lt_or_eq_of_le (dot3_self_nonneg (c • v)) with h | h
    · exact h
    · exact absurd (by rw [← hdd, ← h]) (mul_ne_zero hc (mul_ne_zero hc hvv))
  have hnpos : 0 < norm3 (c • v) := by
    rw [norm3]
    exact Real.sqrt_pos.mpr hddpos
  have hn2 : norm3 (c • v) * norm3 (c • v) = dot3 (c • v) (c • v) :=
    Real.mul_self_sqrt (dot3_self_nonneg (c • v))
  rw [hqp, dot3_smul_left, dot3_smul_left, dot3_smul_right, smul_smul, smul_smul]
  have hcoeff : (norm3 (c • v))⁻¹ * (c * (m * dot3 v v)) * (norm3 (c • v))⁻¹ * c = m := by
    field_simp
    rw [hn2, hdd]
    ring
  rw [hcoeff]
  simp

lemma kNearest_subset (pts : List V3) (p : V3) (k : ℕ) :
    ∀ q ∈ kNearest pts p k, q ∈ pts := by
  intro q hq
  rw [kNearest] at hq
  exact (List.perm_insertionSort _ pts).mem_iff.mp (List.take_subset _ _ hq)

lemma kNearest_ne_nil (pts : List V3) (p : V3) (k : ℕ) (hk : 1 ≤ k) (hne : pts ≠ []) :
    kNearest pts p k ≠ [] := by
  rw [kNearest]
  intro h
  have hlen := congrArg List.length h
  rw [List.length_take, (List.perm_insertionSort _ pts).length_eq] at hlen
  have hp : 0 < pts.length := List.length_pos.mpr hne
  simp only [List.length_nil] at hlen
  omega

lemma smoothPoint_eq_map (var : ℝ) (ap : List V3) (k : ℕ) (p d : V3) :
    smoothPoint var ap k p d =
      ((kNearest ap p k).map
        (fun q =>
          (kernelWeight var (dist3 p q) / (rawWeights var p (kNearest ap p k)).sum) •
            (((q - p) - dot3 ((norm3 d)⁻¹ • d) (q - p) • ((norm3 d)⁻¹ • d)) + p))).sum := by
  rw [smoothPoint]
  show (List.zipWith
      (fun w cand => (w / (rawWeights var p (kNearest ap p k)).sum) • cand)
      ((kNearest ap p k).map (fun q => kernelWeight var (dist3 p q)))
      ((kNearest ap p k).map
        (fun q =>
          ((q - p) - dot3 ((norm3 d)⁻¹ • d) (q - p) • ((norm3 d)⁻¹ • d)) + p))).sum = _
  rw [List.zipWith_map, List.zipWith_same]

lemma rawWeights_sum_pos (var : ℝ) (p : V3) (nbrs : List V3) (hne : nbrs ≠ []) :
    0 < (rawWeights var p nbrs).sum := by
  apply List.sum_pos
  · intro x hx
    rcases List.mem_map.mp hx with ⟨q, _, rfl⟩
    exact Real.exp_pos _
  · simp [rawWeights, hne]

lemma smoothPoint_fixed (var : ℝ) (ap : List V3) (k : ℕ) (p d : V3) (a v : V3)
    (hvv : dot3 v v ≠ 0) (c : ℝ) (hc : c ≠ 0) (hd : d = c • v)
    (hap : ∀ q ∈ ap, ∃ s : ℝ, q = a + s • v)
    (sp : ℝ) (hsp : p = a + sp • v)
    (hk : 1 ≤ k) (hne : ap ≠ []) :
    smoothPoint var ap k p d = p := by
  rw [smoothPoint_eq_map]
  have hcand : ∀ q ∈ kNearest ap p k,
      ((q - p) - dot3 ((norm3 d)⁻¹ • d) (q - p) • ((norm3 d)⁻¹ • d)) + p = p := by
    intro q hq
    obtain ⟨sq, hsq⟩ := hap q (kNearest_subset ap p k q hq)
    have hqp : q - p = (sq - sp) • v := by rw [hsq, hsp, line_sub]
    exact proj_candidate_eq p q v d c (sq - sp) hc hvv hd hqp
  rw [List.map_congr_left (fun q hq => by rw [hcand q hq] :
    ∀ q ∈ kNearest ap p k,
      (kernelWeight var (dist3 p q) / (rawWeights var p (kNearest ap p k)).sum) •
          (((q - p) - dot3 ((norm3 d)⁻¹ • d) (q - p) • ((norm3 d)⁻¹ • d)) + p) =
        (kernelWeight var (dist3 p q) / (rawWeights var p (kNearest ap p k)).sum) • p)]
  rw [list_map_smul_sum]
  have hS : ((kNearest ap p k).map
      (fun q => kernelWeight var (dist3 p q) / (rawWeights var p (kNearest ap p k)).sum)).sum
      = 1 := by
    have hmm : (kNearest ap p k).map
        (fun q => kernelWeight var (dist3 p q) / (rawWeights var p (kNearest ap p k)).sum) =
        ((kNearest ap p k).map (fun q => kernelWeight var (dist3 p q))).map
          (fun x => x / (rawWeights var p (kNearest ap p k)).sum) := by
      rw [List.map_map]
      rfl
    rw [hmm, list_sum_map_div]
    exact div_self (rawWeights_sum_pos var p _ (kNearest_ne_nil ap p k hk hne)).ne'
  rw [hS, one_smul]

end SmoothingLemmas

section SmoothingTract

open scoped Classical

lemma diffs_scaled (a v : V3) :
    ∀ t : List V3, List.Chain' (fun p q => p ≠ q) t →
      (∀ p ∈ t, ∃ s : ℝ, p = a + s • v) →
      ∀ d ∈ diffs t, ∃ c : ℝ, c ≠ 0 ∧ d = c • v := by
  intro t
  induction t with
  | nil => intro _ _ d hd; simp [diffs] at hd
  | cons p rest ih =>
    intro hchain hline d hd
    cases rest with
    | nil => simp [diffs] at hd
    | cons q rest2 =>
      rw [show diffs (p :: q :: rest2) = (q - p) :: diffs (q :: rest2) from rfl] at hd
      rcases List.mem_cons.mp hd with rfl | hd2
      · obtain ⟨sp, hsp⟩ := hline p (by simp)
        obtain ⟨sq, hsq⟩ := hline q (by simp)
        have hne : p ≠ q := (List.chain'_cons.mp hchain).1
        refine ⟨sq - sp, ?_, by rw [hsq, hsp, line_sub]⟩
        intro h0
        apply hne
        have hqp : q - p = (sq - sp) • v := by rw [hsq, hsp, line_sub]
        rw [h0, zero_smul] at hqp
        exact (sub_eq_zero.mp hqp).symm
      · exact ih (List.chain'_cons.mp hchain).2 (fun x hx => hline x (by simp [hx])) d hd2

lemma diffs_length : ∀ t : List V3, (diffs t).length = t.length - 1 := by
  intro t
  induction t with
  | nil => simp [diffs]
  | cons p rest ih =>
    cases rest with
    | nil => simp [diffs]
    | cons q rest2 =>
      rw [show diffs (p :: q :: rest2) = (q - p) :: diffs (q :: rest2) from rfl]
      simp only [List.length_cons] at ih ⊢
      omega

lemma diffExt_eq_of_getLast (t : List V3) (x : V3) (hlast : (diffs t).getLast? = some x) :
    diffExt t = diffs t ++ [x] := by
  unfold diffExt
  rw [hlast]

lemma diffExt_mem (t : List V3) : ∀ d ∈ diffExt t, d ∈ diffs t := by
  intro d hd
  cases hlast : (diffs t).getLast? with
  | none =>
    have : diffExt t = [] := by unfold diffExt; rw [hlast]
    rw [this] at hd
    simp at hd
  | some x =>
    rw [diffExt_eq_of_getLast t x hlast] at hd
    rcases List.mem_append.mp hd with h | h
    · exact h
    · rw [List.mem_singleton] at h
      subst h
      exact List.mem_of_getLast?_eq_some hlast

lemma diffExt_length (t : List V3) (h : 2 ≤ t.length) : (diffExt t).length = t.length := by
  have hlen := diffs_length t
  have hne : diffs t ≠ [] := by
    intro h0
    rw [h0] at hlen
    simp at hlen
    omega
  cases hlast : (diffs t).getLast? with
  | none => exact absurd (List.getLast?_eq_none_iff.mp hlast) hne
  | some x =>
    rw [diffExt_eq_of_getLast t x hlast, List.length_append, hlen]
    simp only [List.length_singleton]
    omega

lemma one_le_adaptive_k (pts t : List V3) (r : ℝ) (hr : 0 ≤ r)
    (hsub : ∀ p ∈ t, p ∈ pts) (htne : t ≠ []) :
    1 ≤ (t.map (fun p => radiusCount pts p r)).foldl max 0 := by
  cases t with
  | nil => exact absurd rfl htne
  | cons p0 rest =>
    have hmem : p0 ∈ pts := hsub p0 (by simp)
    have hcount : 1 ≤ radiusCount pts p0 r := by
      rw [radiusCount]
      have hd0 : dist3 p0 p0 = 0 := by
        simp [dist3, norm3, dot3]
      have hp0 : p0 ∈ pts.filter (fun q => dist3 p0 q ≤ r) := by
        rw [List.mem_filter]
        refine ⟨hmem, ?_⟩
        simp only [hd0, decide_eq_true_eq]
        exact hr
      exact List.length_pos_of_mem hp0
    exact le_trans hcount (le_foldl_max _ 0 _ (List.mem_map_of_mem _ (by simp)))

lemma smoothTract_fixed (var : ℝ) (t : List V3) (hvar : 0 < var) (hlen : 2 ≤ t.length)
    (hchain : List.Chain' (fun p q => p ≠ q) t)
    (a v : V3) (hvv : dot3 v v ≠ 0)
    (hline : ∀ p ∈ t, ∃ s : ℝ, p = a + s • v) :
    smoothTract var t t = t := by
  have htne : t ≠ [] := by
    intro h0
    rw [h0] at hlen
    simp at hlen
  have hk1 : 1 ≤ (t.map (fun p => radiusCount t p (var * 3))).foldl max 0 :=
    one_le_adaptive_k t t (var * 3) (by linarith) (fun p hp => hp) htne
  rw [smoothTract]
  have hzip : ∀ pd ∈ t.zip (diffExt t),
      (fun pd : V3 × V3 =>
        smoothPoint var t ((t.map (fun p => radiusCount t p (var * 3))).foldl max 0)
          pd.1 pd.2) pd = Prod.fst pd := by
    rintro ⟨p, d⟩ hpd
    obtain ⟨hp_mem, hd_mem⟩ := List.of_mem_zip hpd
    obtain ⟨c, hc, hdc⟩ := diffs_scaled a v t hchain hline d (diffExt_mem t d hd_mem)
    obtain ⟨sp, hsp⟩ := hline p hp_mem
    exact smoothPoint_fixed var t _ p d a v hvv c hc hdc hline sp hsp hk1 htne
  rw [List.map_congr_left hzip,
    List.map_fst_zip t (diffExt t) (le_of_eq (diffExt_length t hlen).symm)]

end SmoothingTract

/-! ## Claim C9 -/

/-- C9: for every streamline with at least two points, pairwise-distinct
consecutive points, all lying on one line, when the spatial index contains no
points other than that streamline's own points (a single-streamline
tractography), smoothing returns the streamline with every point position
unchanged. -/
theorem tract_smooth_collinear (var : ℝ) (t : List V3) (hvar : 0 < var)
    (hlen : 2 ≤ t.length)
    (hchain : List.Chain' (fun p q => p ≠ q) t)
    (hline : ∃ a v, dot3 v v ≠ 0 ∧ ∀ p ∈ t, ∃ s : ℝ, p = a + s • v) :
    tract_smooth var [t] = [t] := by
  obtain ⟨a, v, hvv, hl⟩ := hline
  rw [tract_smooth, tract_smooth_state_eq]
  have hflat : ([t] : List (List V3)).flatten = t := by simp
  rw [hflat, List.map_cons, List.map_nil,
    smoothTract_fixed var t hvar hlen hchain a v hvv hl]

theorem tract_smooth_collinear_witness :
    ((0:ℝ) < 1) ∧
      tract_smooth 1 [[((0:ℝ), 0, 0), (1, 0, 0), (2, 0, 0)]] =
        [[((0:ℝ), 0, 0), (1, 0, 0), (2, 0, 0)]] :=
  ⟨by norm_num,
    tract_smooth_collinear 1 _ (by norm_num) (by simp)
      (by norm_num [List.chain'_cons, List.chain'_singleton, Prod.ext_iff])
      ⟨(0, 0, 0), (1, 0, 0), by norm_num [dot3], by
        intro p hp
        simp only [List.mem_cons, List.not_mem_nil, or_false] at hp
        rcases hp with rfl | rfl | rfl
        · exact ⟨0, by norm_num [Prod.smul_mk, Prod.mk_add_mk, Prod.ext_iff]⟩
        · exact ⟨1, by norm_num [Prod.smul_mk, Prod.mk_add_mk, Prod.ext_iff]⟩
        · exact ⟨2, by norm_num [Prod.smul_mk, Prod.mk_add_mk, Prod.ext_iff]⟩⟩⟩

/-! ## Claim C3 -/

/-- C3 (counterexample): at neighbor distance 1 with parameter 2, the source's
kernel weight `exp(-.5 * d**2 / std)` with `std = var ** 2` equals
`exp(-1/8)`, which differs from the claimed `exp(−d²/(2·varianceParameter)) =
exp(-1/4)`: the source squares the parameter, treating it as a standard
deviation rather than a variance. -/
theorem kernelWeight_ne_claim : kernelWeight 2 1 ≠ claimKernelWeight 2 1 := by
  rw [kernelWeight, claimKernelWeight, smooth_std]
  intro h
  rw [Real.exp_eq_exp] at h
  norm_num at h

/-- C3 (amended): each neighbor at original distance `d` is weighted by
`exp(−d² / (2·var²))` — the input parameter is treated as a standard
deviation — and the weights are normalized to sum to 1 across the neighbor
set. -/
theorem smooth_weights_amended (var : ℝ) (p : V3) (nbrs : List V3) (hne : nbrs ≠ []) :
    ((rawWeights var p nbrs).map (fun w => w / (rawWeights var p nbrs).sum)).sum = 1 ∧
      ∀ q ∈ nbrs, kernelWeight var (dist3 p q) =
        Real.exp (-(dist3 p q) ^ 2 / (2 * var ^ 2)) := by
  constructor
  · rw [list_sum_map_div]
    exact div_self (rawWeights_sum_pos var p nbrs hne).ne'
  · intro q _
    rw [kernelWeight, smooth_std]
    congr 1
    ring

theorem smooth_weights_amended_witness :
    (([((0:ℝ), 0, 0)] : List V3) ≠ []) ∧
      (((rawWeights 2 ((0:ℝ), 0, 0) [((0:ℝ), 0, 0)]).map
          (fun w => w / (rawWeights 2 ((0:ℝ), 0, 0) [((0:ℝ), 0, 0)]).sum)).sum = 1 ∧
        ∀ q ∈ ([((0:ℝ), 0, 0)] : List V3),
          kernelWeight 2 (dist3 ((0:ℝ), 0, 0) q) =
            Real.exp (-(dist3 ((0:ℝ), 0, 0) q) ^ 2 / (2 * 2 ^ 2))) :=
  ⟨by simp, smooth_weights_amended 2 _ _ (by simp)⟩

/-! ## Claim C4 (amended part) -/

/-- C4 (amended): `tract_smooth` overwrites each input streamline array in
place (`tract[:] = weighted_points`), so after it returns the input
tractography's arrays hold the smoothed coordinates and the returned
tractography consists of those same arrays; each smoothed streamline is
nevertheless computed from the original pre-smoothing geometry (the spatial
index is a copy made before the loop and each array is read before being
overwritten). -/
theorem tract_smooth_state_spec (var : ℝ) (tracts : List (List V3)) :
    tract_smooth var tracts = tract_smooth_state var tracts ∧
      tract_smooth_state var tracts = tracts.map (smoothTract var tracts.flatten) :=
  ⟨rfl, tract_smooth_state_eq var tracts⟩

section MutationCounterexample

open scoped Classical

lemma dist3_le_of_sq (p q : V3) (r : ℝ) (hr : 0 ≤ r)
    (h : dot3 (q - p) (q - p) ≤ r ^ 2) : dist3 p q ≤ r := by
  rw [dist3, norm3]
  calc Real.sqrt (dot3 (q - p) (q - p)) ≤ Real.sqrt (r ^ 2) := Real.sqrt_le_sqrt h
    _ = r := Real.sqrt_sq hr

lemma list_sum_snd_fst (l : List V3) : l.sum.2.1 = (l.map (fun x => x.2.1)).sum := by
  induction l with
  | nil => simp
  | cons x xs ih => simp [ih]

lemma sndfst_smul (c : ℝ) (x : V3) : (c • x).2.1 = c * x.2.1 := by
  simp [Prod.smul_snd, Prod.smul_fst]

/-- C4 (counterexample): on the single non-collinear streamline
`[(0,0,0), (3,0,0), (3,4,0)]` with parameter 10, the state of the input
tractography's arrays after `tract_smooth` returns differs from the original
input — smoothing mutates its input in place, so the claim that every
operation leaves its inputs unmodified is false. -/
theorem tract_smooth_mutates_input :
    tract_smooth_state 10 [[((0:ℝ), 0, 0), (3, 0, 0), (3, 4, 0)]] ≠
      [[((0:ℝ), 0, 0), (3, 0, 0), (3, 4, 0)]] := by
  intro hmut
  rw [tract_smooth_state_eq] at hmut
  simp only [List.flatten_cons, List.flatten_nil, List.append_nil, List.map_cons,
    List.map_nil, List.cons.injEq, and_true] at hmut
  have hdiffs : diffs [((0:ℝ), 0, 0), (3, 0, 0), (3, 4, 0)] = [((3:ℝ), 0, 0), (0, 4, 0)] := by
    show [((3:ℝ), 0, 0) - ((0:ℝ), 0, 0), ((3:ℝ), 4, 0) - ((3:ℝ), 0, 0)] =
      [((3:ℝ), 0, 0), (0, 4, 0)]
    norm_num [Prod.mk_sub_mk, Prod.ext_iff]
  have hlast2 : (diffs [((0:ℝ), 0, 0), (3, 0, 0), (3, 4, 0)]).getLast? =
      some ((0:ℝ), 4, 0) := by
    rw [hdiffs]
    rfl
  have hdiffExt : diffExt [((0:ℝ), 0, 0), (3, 0, 0), (3, 4, 0)] =
      [((3:ℝ), 0, 0), (0, 4, 0), (0, 4, 0)] := by
    rw [diffExt_eq_of_getLast _ _ hlast2, hdiffs]
    rfl
  have hdd : ∀ p ∈ [((0:ℝ), 0, 0), (3, 0, 0), (3, 4, 0)],
      ∀ q ∈ [((0:ℝ), 0, 0), (3, 0, 0), (3, 4, 0)], dist3 p q ≤ 10 * 3 := by
    intro p hp q hq
    simp only [List.mem_cons, List.not_mem_nil, or_false] at hp hq
    rcases hp with rfl | rfl | rfl <;> rcases hq with rfl | rfl | rfl <;>
      exact dist3_le_of_sq _ _ _ (by norm_num) (by norm_num [dot3, Prod.mk_sub_mk])
  have hcount : ∀ p ∈ [((0:ℝ), 0, 0), (3, 0, 0), (3, 4, 0)],
      radiusCount [((0:ℝ), 0, 0), (3, 0, 0), (3, 4, 0)] p (10 * 3) = 3 := by
    intro p hp
    rw [radiusCount, List.filter_eq_self.mpr]
    · rfl
    · intro q hq
      simp only [decide_eq_true_eq]
      exact hdd p hp q hq
  have hk3 : (([((0:ℝ), 0, 0), (3, 0, 0), (3, 4, 0)] : List V3).map
      (fun p => radiusCount [((0:ℝ), 0, 0), (3, 0, 0), (3, 4, 0)] p (10 * 3))).foldl max 0
      = 3 := by
    have hmap : ([((0:ℝ), 0, 0), (3, 0, 0), (3, 4, 0)] : List V3).map
        (fun p => radiusCount [((0:ℝ), 0, 0), (3, 0, 0), (3, 4, 0)] p (10 * 3)) =
        [3, 3, 3] := by
      simp only [List.map_cons, List.map_nil]
      rw [hcount _ (by simp), hcount _ (by simp), hcount _ (by simp)]
    rw [hmap]
    rfl
  rw [smoothTract] at hmut
  rw [hdiffExt, hk3] at hmut
  simp only [List.zip_cons_cons, List.zip_nil_left, List.zip_nil_right, List.map_cons,
    List.map_nil, List.cons.injEq, and_true] at hmut
  obtain ⟨h0, -⟩ := hmut
  have hy : 0 < (smoothPoint 10 [((0:ℝ), 0, 0), (3, 0, 0), (3, 4, 0)] 3
      ((0:ℝ), 0, 0) ((3:ℝ), 0, 0)).2.1 := by
    rw [smoothPoint_eq_map, list_sum_snd_fst, List.map_map]
    have hnbrs_eq : kNearest [((0:ℝ), 0, 0), (3, 0, 0), (3, 4, 0)] ((0:ℝ), 0, 0) 3 =
        List.insertionSort
          (fun q r => dist3 ((0:ℝ), 0, 0) q ≤ dist3 ((0:ℝ), 0, 0) r)
          [((0:ℝ), 0, 0), (3, 0, 0), (3, 4, 0)] := by
      rw [kNearest]
      apply List.take_of_length_le
      rw [(List.perm_insertionSort _ _).length_eq]
      simp
    have hperm : List.Perm (kNearest [((0:ℝ), 0, 0), (3, 0, 0), (3, 4, 0)] ((0:ℝ), 0, 0) 3)
        [((0:ℝ), 0, 0), (3, 0, 0), (3, 4, 0)] := by
      rw [hnbrs_eq]
      exact List.perm_insertionSort _ _
    have hp0mem : ((3:ℝ), 4, 0) ∈ kNearest [((0:ℝ), 0, 0), (3, 0, 0), (3, 4, 0)]
        ((0:ℝ), 0, 0) 3 := hperm.mem_iff.mpr (by simp)
    have hnne : kNearest [((0:ℝ), 0, 0), (3, 0, 0), (3, 4, 0)] ((0:ℝ), 0, 0) 3 ≠ [] := by
      intro h1
      rw [h1] at hp0mem
      simp at hp0mem
    have hS : 0 < (rawWeights 10 ((0:ℝ), 0, 0)
        (kNearest [((0:ℝ), 0, 0), (3, 0, 0), (3, 4, 0)] ((0:ℝ), 0, 0) 3)).sum :=
      rawWeights_sum_pos _ _ _ hnne
    have hcomp : ∀ q ∈ kNearest [((0:ℝ), 0, 0), (3, 0, 0), (3, 4, 0)] ((0:ℝ), 0, 0) 3,
        ((fun x : V3 => x.2.1) ∘ fun q =>
          (kernelWeight 10 (dist3 ((0:ℝ), 0, 0) q) /
            (rawWeights 10 ((0:ℝ), 0, 0)
              (kNearest [((0:ℝ), 0, 0), (3, 0, 0), (3, 4, 0)] ((0:ℝ), 0, 0) 3)).sum) •
            (((q - ((0:ℝ), 0, 0)) -
              dot3 ((norm3 ((3:ℝ), 0, 0))⁻¹ • ((3:ℝ), 0, 0)) (q - ((0:ℝ), 0, 0)) •
                ((norm3 ((3:ℝ), 0, 0))⁻¹ • ((3:ℝ), 0, 0))) + ((0:ℝ), 0, 0))) q =
        (kernelWeight 10 (dist3 ((0:ℝ), 0, 0) q) /
          (rawWeights 10 ((0:ℝ), 0, 0)
            (kNearest [((0:ℝ), 0, 0), (3, 0, 0), (3, 4, 0)] ((0:ℝ), 0, 0) 3)).sum) *
          q.2.1 := by
      intro q _
      simp only [Function.comp_apply, sndfst_smul, Prod.snd_add, Prod.fst_add,
        Prod.snd_sub, Prod.fst_sub]
      norm_num
    rw [List.map_congr_left hcomp]
    refine list_sum_pos_of_mem _ ?_ _
      (List.mem_map_of_mem
        (fun a : V3 =>
          kernelWeight 10 (dist3 ((0:ℝ), 0, 0) a) /
              (rawWeights 10 ((0:ℝ), 0, 0)
                (kNearest [((0:ℝ), 0, 0), (3, 0, 0), (3, 4, 0)] ((0:ℝ), 0, 0) 3)).sum *
            a.2.1)
        hp0mem) ?_
    · intro x hx
      rcases List.mem_map.mp hx with ⟨q, hq, rfl⟩
      have hqy : 0 ≤ q.2.1 := by
        have hqt := hperm.mem_iff.mp hq
        simp only [List.mem_cons, List.not_mem_nil, or_false] at hqt
        rcases hqt with rfl | rfl | rfl <;> norm_num
      exact mul_nonneg (div_nonneg (Real.exp_pos _).le hS.le) hqy
    · show (0:ℝ) <
        kernelWeight 10 (dist3 ((0:ℝ), 0, 0) ((3:ℝ), 4, 0)) /
            (rawWeights 10 ((0:ℝ), 0, 0)
              (kNearest [((0:ℝ), 0, 0), (3, 0, 0), (3, 4, 0)] ((0:ℝ), 0, 0) 3)).sum * 4
      exact mul_pos (div_pos (Real.exp_pos _) hS) (by norm_num)
  rw [h0] at hy
  norm_num at hy

end MutationCounterexample
